import Mathlib

/-!
Verification of `scripts/fetch_github_contributions.py`.

The script fetches, per calendar year, the GitHub organizations a user
contributed to, merges the result with a manual override file, and writes a
JSON mapping from year string to a list of organization records.

This file gives a shallow embedding of the script:
* organization records are the dicts built at lines 147-152 of the script;
* a contribution dataset (a Python dict from year string to list of records)
  is an insertion-ordered association list `List (String × List OrgRec)`;
* the dict comprehensions and `{**a, **m}` unions of `merge_contributions`
  are modelled by insertion-ordered association lists with last-write-wins
  updates, exactly mirroring CPython dict semantics (first-occurrence key
  order, in-place value replacement);
* the fetcher `get_contributions_for_year` takes the parsed HTTP response as
  input (the network boundary); exceptions raised by the HTTP client are
  modelled with `Except` where `main` is concerned.

Python iterates `set(auto) | set(manual)` in an unspecified order; the model
fixes one concrete order (auto keys first, then new manual keys, deduplicated).
All theorems about merged datasets are stated through `Dataset.get` (Python
dict lookup), which is insensitive to that choice.
-/

set_option autoImplicit false
set_option maxRecDepth 2000

namespace GithubContributions

/-- An organization record as built by the script (lines 147-152): the dict
`{"login": .., "name": .., "avatarUrl": .., "url": ..}`.  `name` is always a
string (`owner.get("name") or login`); `avatarUrl` and `url` come straight
from `owner.get(..)` and may be `None` (`none`). -/
structure OrgRec where
  login : String
  name : String
  avatarUrl : Option String
  url : Option String
deriving DecidableEq, Repr

/-- A contribution dataset: a Python dict from year string to list of
organization records, modelled as an insertion-ordered association list. -/
abbrev Dataset := List (String × List OrgRec)

/-- Python dict lookup `d[y]` / `d.get(y)` on a dataset: first entry wins. -/
def Dataset.get (d : Dataset) (y : String) : Option (List OrgRec) :=
  match d with
  | [] => none
  | (y', l) :: rest => if y' = y then some l else Dataset.get rest y

/-- Python `d.get(y, [])` on a dataset. -/
def Dataset.getD (d : Dataset) (y : String) : List OrgRec :=
  (d.get y).getD []

/-- The keys of a dataset, in insertion order (Python `d.keys()`). -/
def Dataset.keys (d : Dataset) : List String :=
  d.map Prod.fst

/-- An association list from login to record, as used inside
`merge_contributions` (`auto_orgs`, `manual_orgs`, `combined`). -/
abbrev OrgMap := List (String × OrgRec)

/-- Python dict lookup on an org map: first entry wins. -/
def lookupKey (d : OrgMap) (k : String) : Option OrgRec :=
  match d with
  | [] => none
  | (k', v) :: rest => if k' = k then some v else lookupKey rest k

/-- The keys of an org map, in insertion order. -/
def mapKeys (d : OrgMap) : List String :=
  d.map Prod.fst

/-- CPython dict assignment `d[k] = v`: replace the value in place if the key
is present, otherwise append the new pair. -/
def assocUpd (d : OrgMap) (k : String) (v : OrgRec) : OrgMap :=
  match d with
  | [] => [(k, v)]
  | (k', v') :: rest => if k' = k then (k, v) :: rest else (k', v') :: assocUpd rest k v

/-- The dict comprehension `{org["login"]: org for org in l}` (lines 173-174):
insertion-ordered, last record with a given login wins. -/
def dictOfList (l : List OrgRec) : OrgMap :=
  l.foldl (fun d org => assocUpd d org.login org) []

/-- The dict union `{**d1, **d2}` (line 177): start from `d1` and assign every
entry of `d2` in order. -/
def pyUnion (d1 d2 : OrgMap) : OrgMap :=
  d2.foldl (fun d kv => assocUpd d kv.1 kv.2) d1

/-- The per-year body of `merge_contributions` (lines 173-178):
`list({**auto_orgs, **manual_orgs}.values())`. -/
def mergeYear (a m : List OrgRec) : List OrgRec :=
  (pyUnion (dictOfList a) (dictOfList m)).map Prod.snd

/-- The union of year labels `set(auto.keys()) | set(manual.keys())`
(line 170), in the model's fixed iteration order. -/
def allYears (auto manual : Dataset) : List String :=
  (auto.keys ++ manual.keys).dedup

/-- `merge_contributions` (lines 166-180): for every year in either input,
combine that year's automatic and manual lists, manual entries replacing
automatic ones on login collision. -/
def merge_contributions (auto manual : Dataset) : Dataset :=
  (allYears auto manual).map (fun year => (year, mergeYear (auto.getD year) (manual.getD year)))

/-! Basic lemmas about the association-list model. -/

theorem assocUpd_nil (k : String) (v : OrgRec) : assocUpd [] k v = [(k, v)] := rfl

theorem assocUpd_cons_self (k : String) (v v' : OrgRec) (rest : OrgMap) :
    assocUpd ((k, v') :: rest) k v = (k, v) :: rest := by
  simp [assocUpd]

theorem assocUpd_cons_ne (k k' : String) (v v' : OrgRec) (rest : OrgMap) (h : k' ≠ k) :
    assocUpd ((k', v') :: rest) k v = (k', v') :: assocUpd rest k v := by
  simp [assocUpd, h]

theorem lookupKey_nil (k : String) : lookupKey [] k = none := rfl

theorem lookupKey_cons_self (k : String) (v : OrgRec) (rest : OrgMap) :
    lookupKey ((k, v) :: rest) k = some v := by
  simp [lookupKey]

theorem lookupKey_cons_ne (k k' : String) (v : OrgRec) (rest : OrgMap) (h : k' ≠ k) :
    lookupKey ((k', v) :: rest) k = lookupKey rest k := by
  simp [lookupKey, h]

theorem lookupKey_assocUpd_self (d : OrgMap) (k : String) (v : OrgRec) :
    lookupKey (assocUpd d k v) k = some v := by
  induction d with
  | nil => rw [assocUpd_nil, lookupKey_cons_self]
  | cons kv rest ih =>
    obtain ⟨k', v'⟩ := kv
    by_cases h : k' = k
    · subst h
      rw [assocUpd_cons_self, lookupKey_cons_self]
    · rw [assocUpd_cons_ne _ _ _ _ _ h, lookupKey_cons_ne _ _ _ _ h, ih]

theorem lookupKey_assocUpd_ne (d : OrgMap) (k k₀ : String) (v : OrgRec) (h : k₀ ≠ k) :
    lookupKey (assocUpd d k v) k₀ = lookupKey d k₀ := by
  induction d with
  | nil => rw [assocUpd_nil, lookupKey_cons_ne _ _ _ _ (Ne.symm h), lookupKey_nil]
  | cons kv rest ih =>
    obtain ⟨k', v'⟩ := kv
    by_cases hk : k' = k
    · subst hk
      rw [assocUpd_cons_self,
        lookupKey_cons_ne _ _ _ _ (Ne.symm h), lookupKey_cons_ne _ _ _ _ (Ne.symm h)]
    · rw [assocUpd_cons_ne _ _ _ _ _ hk]
      by_cases hk0 : k₀ = k'
      · subst hk0
        rw [lookupKey_cons_self, lookupKey_cons_self]
      · rw [lookupKey_cons_ne _ _ _ _ (Ne.symm hk0), lookupKey_cons_ne _ _ _ _ (Ne.symm hk0), ih]

theorem assocUpd_of_lookupKey_eq (d : OrgMap) (k : String) (v : OrgRec)
    (h : lookupKey d k = some v) : assocUpd d k v = d := by
  induction d with
  | nil => rw [lookupKey_nil] at h; exact absurd h (by simp)
  | cons kv rest ih =>
    obtain ⟨k', v'⟩ := kv
    by_cases hk : k' = k
    · subst hk
      rw [lookupKey_cons_self, Option.some.injEq] at h
      rw [assocUpd_cons_self, h]
    · rw [lookupKey_cons_ne _ _ _ _ hk] at h
      rw [assocUpd_cons_ne _ _ _ _ _ hk, ih h]

theorem mapKeys_assocUpd (d : OrgMap) (k : String) (v : OrgRec) (k₀ : String) :
    k₀ ∈ mapKeys (assocUpd d k v) ↔ k₀ ∈ mapKeys d ∨ k₀ = k := by
  induction d with
  | nil => simp [assocUpd_nil, mapKeys]
  | cons kv rest ih =>
    obtain ⟨k', v'⟩ := kv
    simp only [mapKeys, List.map_cons, List.mem_cons] at ih ⊢
    by_cases hk : k' = k
    · subst hk
      rw [assocUpd_cons_self]
      simp only [List.map_cons, List.mem_cons]
      tauto
    · rw [assocUpd_cons_ne _ _ _ _ _ hk]
      simp only [List.map_cons, List.mem_cons]
      rw [ih]
      tauto

/-- Every value of the org map records its own key as its login.  This holds
for every dict the script builds, because each dict maps `org["login"]` to
`org`. -/
def keyIsLogin (d : OrgMap) : Prop :=
  ∀ kv ∈ d, (kv : String × OrgRec).2.login = kv.1

/-- The keys of the org map are pairwise distinct (true of any Python dict). -/
def KeysNodup (d : OrgMap) : Prop :=
  (mapKeys d).Nodup

theorem keyIsLogin_assocUpd (d : OrgMap) (k : String) (v : OrgRec)
    (hd : keyIsLogin d) (hv : v.login = k) : keyIsLogin (assocUpd d k v) := by
  induction d with
  | nil =>
    rw [assocUpd_nil]
    intro kv hkv
    rw [List.mem_singleton] at hkv
    subst hkv
    exact hv
  | cons kv rest ih =>
    obtain ⟨k', v'⟩ := kv
    have hrest : keyIsLogin rest := fun x hx => hd x (List.mem_cons_of_mem _ hx)
    by_cases hk : k' = k
    · subst hk
      rw [assocUpd_cons_self]
      intro x hx
      rcases List.mem_cons.mp hx with h | h
      · subst h; exact hv
      · exact hrest x h
    · rw [assocUpd_cons_ne _ _ _ _ _ hk]
      intro x hx
      rcases List.mem_cons.mp hx with h | h
      · subst h; exact hd (k', v') (List.mem_cons_self _ _)
      · exact ih hrest x h

theorem keysNodup_assocUpd (d : OrgMap) (k : String) (v : OrgRec)
    (hd : KeysNodup d) : KeysNodup (assocUpd d k v) := by
  induction d with
  | nil => simp [assocUpd_nil, KeysNodup, mapKeys]
  | cons kv rest ih =>
    obtain ⟨k', v'⟩ := kv
    rw [KeysNodup, mapKeys, List.map_cons, List.nodup_cons] at hd
    obtain ⟨hk', hrest⟩ := hd
    by_cases hk : k' = k
    · subst hk
      rw [assocUpd_cons_self]
      rw [KeysNodup, mapKeys, List.map_cons, List.nodup_cons]
      exact ⟨hk', hrest⟩
    · rw [assocUpd_cons_ne _ _ _ _ _ hk]
      rw [KeysNodup, mapKeys, List.map_cons, List.nodup_cons]
      refine ⟨?_, ih hrest⟩
      intro hmem
      rcases (mapKeys_assocUpd rest k v k').mp hmem with h | h
      · exact hk' h
      · exact hk h

theorem lookupKey_eq_none_of_not_mem_keys (d : OrgMap) (k : String)
    (h : k ∉ mapKeys d) : lookupKey d k = none := by
  induction d with
  | nil => rfl
  | cons kv rest ih =>
    obtain ⟨k', v'⟩ := kv
    rw [mapKeys, List.map_cons, List.mem_cons] at h
    push_neg at h
    rw [lookupKey_cons_ne _ _ _ _ (fun hh => h.1 hh.symm)]
    exact ih h.2

theorem mem_keys_of_lookupKey_eq_some (d : OrgMap) (k : String) (v : OrgRec)
    (h : lookupKey d k = some v) : k ∈ mapKeys d := by
  by_contra hmem
  rw [lookupKey_eq_none_of_not_mem_keys d k hmem] at h
  exact Option.noConfusion h

theorem mem_of_lookupKey_eq_some (d : OrgMap) (k : String) (v : OrgRec)
    (h : lookupKey d k = some v) : (k, v) ∈ d := by
  induction d with
  | nil => exact absurd h (by rw [lookupKey_nil]; simp)
  | cons kv rest ih =>
    obtain ⟨k', v'⟩ := kv
    by_cases hk : k' = k
    · subst hk
      rw [lookupKey_cons_self, Option.some.injEq] at h
      subst h
      exact List.mem_cons_self _ _
    · rw [lookupKey_cons_ne _ _ _ _ hk] at h
      exact List.mem_cons_of_mem _ (ih h)

/-! Lemmas about the dict union `{**d1, **d2}`. -/

theorem pyUnion_nil (d : OrgMap) : pyUnion d [] = d := rfl

theorem pyUnion_cons (d : OrgMap) (k : String) (v : OrgRec) (e : OrgMap) :
    pyUnion d ((k, v) :: e) = pyUnion (assocUpd d k v) e := rfl

theorem lookupKey_pyUnion_of_not_mem (d e : OrgMap) (k : String)
    (h : k ∉ mapKeys e) : lookupKey (pyUnion d e) k = lookupKey d k := by
  induction e generalizing d with
  | nil => rw [pyUnion_nil]
  | cons kv rest ih =>
    obtain ⟨k', v'⟩ := kv
    rw [mapKeys, List.map_cons, List.mem_cons] at h
    push_neg at h
    rw [pyUnion_cons, ih _ h.2, lookupKey_assocUpd_ne _ _ _ _ h.1]

theorem lookupKey_pyUnion_mem (d e : OrgMap) (k : String) (v : OrgRec)
    (he : KeysNodup e) (hmem : (k, v) ∈ e) : lookupKey (pyUnion d e) k = some v := by
  induction e generalizing d with
  | nil => exact absurd hmem (List.not_mem_nil _)
  | cons kv rest ih =>
    obtain ⟨k', v'⟩ := kv
    rw [KeysNodup, mapKeys, List.map_cons, List.nodup_cons] at he
    rcases List.mem_cons.mp hmem with h | h
    · obtain ⟨hk, hv⟩ := Prod.mk.injEq .. ▸ h
      subst hk; subst hv
      rw [pyUnion_cons, lookupKey_pyUnion_of_not_mem _ _ _ he.1, lookupKey_assocUpd_self]
    · rw [pyUnion_cons]
      exact ih _ he.2 h

theorem pyUnion_eq_of_lookupKey (d e : OrgMap)
    (h : ∀ kv ∈ e, lookupKey d (kv : String × OrgRec).1 = some kv.2) : pyUnion d e = d := by
  induction e with
  | nil => rfl
  | cons kv rest ih =>
    obtain ⟨k, v⟩ := kv
    rw [pyUnion_cons, assocUpd_of_lookupKey_eq d k v (h (k, v) (List.mem_cons_self _ _))]
    exact ih fun kv hkv => h kv (List.mem_cons_of_mem _ hkv)

theorem keyIsLogin_pyUnion (d e : OrgMap) (hd : keyIsLogin d) (he : keyIsLogin e) :
    keyIsLogin (pyUnion d e) := by
  induction e generalizing d with
  | nil => exact hd
  | cons kv rest ih =>
    obtain ⟨k, v⟩ := kv
    rw [pyUnion_cons]
    exact ih _ (keyIsLogin_assocUpd d k v hd (he (k, v) (List.mem_cons_self _ _)))
      fun x hx => he x (List.mem_cons_of_mem _ hx)

theorem keysNodup_pyUnion (d e : OrgMap) (hd : KeysNodup d) : KeysNodup (pyUnion d e) := by
  induction e generalizing d with
  | nil => exact hd
  | cons kv rest ih =>
    obtain ⟨k, v⟩ := kv
    rw [pyUnion_cons]
    exact ih _ (keysNodup_assocUpd d k v hd)

/-! Lemmas about the dict comprehension `{org["login"]: org for org in l}`. -/

theorem dictOfList_eq_foldl (l : List OrgRec) :
    dictOfList l = l.foldl (fun d org => assocUpd d org.login org) [] := rfl

theorem dictOfList_cons (o : OrgRec) (l : List OrgRec) :
    dictOfList (o :: l) = l.foldl (fun d org => assocUpd d org.login org) [(o.login, o)] := rfl

theorem keyIsLogin_foldl_dict (l : List OrgRec) (d : OrgMap) (hd : keyIsLogin d) :
    keyIsLogin (l.foldl (fun d org => assocUpd d org.login org) d) := by
  induction l generalizing d with
  | nil => exact hd
  | cons o rest ih => exact ih _ (keyIsLogin_assocUpd d o.login o hd rfl)

theorem keysNodup_foldl_dict (l : List OrgRec) (d : OrgMap) (hd : KeysNodup d) :
    KeysNodup (l.foldl (fun d org => assocUpd d org.login org) d) := by
  induction l generalizing d with
  | nil => exact hd
  | cons o rest ih => exact ih _ (keysNodup_assocUpd d o.login o hd)

theorem keyIsLogin_dictOfList (l : List OrgRec) : keyIsLogin (dictOfList l) :=
  keyIsLogin_foldl_dict l [] fun kv h => absurd h (List.not_mem_nil kv)

theorem keysNodup_dictOfList (l : List OrgRec) : KeysNodup (dictOfList l) :=
  keysNodup_foldl_dict l [] List.nodup_nil

theorem foldl_dict_cons (l : List OrgRec) (k : String) (v : OrgRec) (d : OrgMap)
    (h : ∀ o ∈ l, (o : OrgRec).login ≠ k) :
    l.foldl (fun d org => assocUpd d org.login org) ((k, v) :: d)
      = (k, v) :: l.foldl (fun d org => assocUpd d org.login org) d := by
  induction l generalizing d with
  | nil => rfl
  | cons o rest ih =>
    simp only [List.foldl_cons]
    rw [assocUpd_cons_ne _ _ _ _ _ (Ne.symm (h o (List.mem_cons_self _ _)))]
    exact ih _ fun x hx => h x (List.mem_cons_of_mem _ hx)

theorem dictOfList_map_snd (d : OrgMap) (h1 : keyIsLogin d) (h2 : KeysNodup d) :
    dictOfList (d.map Prod.snd) = d := by
  induction d with
  | nil => rfl
  | cons kv rest ih =>
    obtain ⟨k, v⟩ := kv
    have hv : v.login = k := h1 (k, v) (List.mem_cons_self _ _)
    rw [KeysNodup, mapKeys, List.map_cons, List.nodup_cons] at h2
    have hrest1 : keyIsLogin rest := fun x hx => h1 x (List.mem_cons_of_mem _ hx)
    have hne : ∀ o ∈ rest.map Prod.snd, (o : OrgRec).login ≠ k := by
      intro o ho hlogin
      rw [List.mem_map] at ho
      obtain ⟨kv', hkv', rfl⟩ := ho
      have hk : kv'.1 = k := (hrest1 kv' hkv').symm.trans hlogin
      have hmem : kv'.1 ∈ List.map Prod.fst rest := List.mem_map_of_mem Prod.fst hkv'
      rw [hk] at hmem
      exact h2.1 hmem
    rw [List.map_cons, dictOfList_cons, hv, foldl_dict_cons _ _ _ _ hne,
      ← dictOfList_eq_foldl, ih hrest1 h2.2]

theorem map_login_map_snd (d : OrgMap) (h : keyIsLogin d) :
    (d.map Prod.snd).map OrgRec.login = mapKeys d := by
  induction d with
  | nil => rfl
  | cons kv rest ih =>
    obtain ⟨k, v⟩ := kv
    have hv : v.login = k := h (k, v) (List.mem_cons_self _ _)
    rw [mapKeys] at ih ⊢
    simp only [List.map_cons, hv, List.cons.injEq, true_and]
    exact ih fun x hx => h x (List.mem_cons_of_mem _ hx)

theorem find?_map_snd_eq_lookupKey (d : OrgMap) (h : keyIsLogin d) (lg : String) :
    (d.map Prod.snd).find? (fun o => o.login == lg) = lookupKey d lg := by
  induction d with
  | nil => rfl
  | cons kv rest ih =>
    obtain ⟨k, v⟩ := kv
    have hv : v.login = k := h (k, v) (List.mem_cons_self _ _)
    have hrest : keyIsLogin rest := fun x hx => h x (List.mem_cons_of_mem _ hx)
    by_cases hk : k = lg
    · subst hk
      simp [List.find?, hv, lookupKey_cons_self]
    · have hbeq : (v.login == lg) = false := by simp [hv, hk]
      simp [List.find?, hbeq, lookupKey_cons_ne _ _ _ _ hk, ih hrest]

/-! The key facts about the per-year merge. -/

theorem keyIsLogin_mergeMap (a m : List OrgRec) :
    keyIsLogin (pyUnion (dictOfList a) (dictOfList m)) :=
  keyIsLogin_pyUnion _ _ (keyIsLogin_dictOfList a) (keyIsLogin_dictOfList m)

theorem keysNodup_mergeMap (a m : List OrgRec) :
    KeysNodup (pyUnion (dictOfList a) (dictOfList m)) :=
  keysNodup_pyUnion _ _ (keysNodup_dictOfList a)

/-- Merging a year list once more with the same manual list changes nothing. -/
theorem mergeYear_idem (a m : List OrgRec) :
    mergeYear (mergeYear a m) m = mergeYear a m := by
  unfold mergeYear
  rw [dictOfList_map_snd _ (keyIsLogin_mergeMap a m) (keysNodup_mergeMap a m),
    pyUnion_eq_of_lookupKey]
  intro kv hkv
  exact lookupKey_pyUnion_mem _ _ _ _ (keysNodup_dictOfList m) hkv

/-- The logins of a merged year list are pairwise distinct. -/
theorem mergeYear_logins_nodup (a m : List OrgRec) :
    ((mergeYear a m).map OrgRec.login).Nodup := by
  unfold mergeYear
  rw [map_login_map_snd _ (keyIsLogin_mergeMap a m)]
  exact keysNodup_mergeMap a m

/-! Lemmas about dataset lookup and `merge_contributions`. -/

theorem dataset_get_map_keyed (l : List String) (f : String → List OrgRec) (y : String) :
    Dataset.get (l.map fun k => (k, f k)) y = if y ∈ l then some (f y) else none := by
  induction l with
  | nil => simp [Dataset.get]
  | cons k rest ih =>
    by_cases hk : k = y
    · subst hk
      simp [Dataset.get]
    · simp [Dataset.get, hk, Ne.symm hk, ih]

theorem mem_keys_of_get_eq_some (d : Dataset) (y : String) (l : List OrgRec)
    (h : d.get y = some l) : y ∈ d.keys := by
  induction d with
  | nil => exact absurd h (by simp [Dataset.get])
  | cons kv rest ih =>
    obtain ⟨y', l'⟩ := kv
    rw [Dataset.keys, List.map_cons, List.mem_cons]
    by_cases hy : y' = y
    · exact Or.inl hy.symm
    · rw [Dataset.get, if_neg hy] at h
      exact Or.inr (ih h)

theorem mem_allYears (A B : Dataset) (y : String) :
    y ∈ allYears A B ↔ y ∈ A.keys ∨ y ∈ B.keys := by
  rw [allYears, List.mem_dedup, List.mem_append]

theorem keys_merge_contributions (A B : Dataset) :
    (merge_contributions A B).keys = allYears A B := by
  unfold merge_contributions
  rw [Dataset.keys, List.map_map]
  exact List.map_id _

/-- Characterization of lookup in the merged dataset. -/
theorem merge_contributions_get (A B : Dataset) (y : String) :
    (merge_contributions A B).get y
      = if y ∈ allYears A B then some (mergeYear (A.getD y) (B.getD y)) else none := by
  unfold merge_contributions
  exact dataset_get_map_keyed _ _ y

/-! The fetcher `get_contributions_for_year` (lines 38-155). -/

/-- The GraphQL subject user, `GITHUB_USERNAME` (line 32). -/
def GITHUB_USERNAME : String := "haythemsellami"

/-- A repository owner object, as read with `owner.get(..)` (lines 134-137,
146-152).  `none` models a missing key or JSON `null`; the inline fragment
`... on Organization` leaves all four fields absent for non-organization
owners. -/
structure Owner where
  login : Option String
  name : Option String
  avatarUrl : Option String
  url : Option String
deriving DecidableEq, Repr

/-- One element of a `*ContributionsByRepository` list: its owner and the
`isPrivate` flag.  `repo.get("isPrivate")` missing behaves like `False` under
the `not` at line 143, so the flag is a plain `Bool`. -/
structure RepoEntry where
  owner : Owner
  isPrivate : Bool
deriving DecidableEq, Repr

/-- The `contributionsCollection` object of the response (lines 122-128). -/
structure Collection where
  commitContributionsByRepository : List RepoEntry
  pullRequestContributionsByRepository : List RepoEntry
  issueContributionsByRepository : List RepoEntry
deriving DecidableEq, Repr

/-- Python truthiness of an optional string: `None` and `""` are falsy. -/
def truthy : Option String → Bool
  | none => false
  | some s => !(s == "")

/-- Python `str.lower()` (line 139), modelled character by character. -/
def pyLower (s : String) : String := ⟨s.data.map Char.toLower⟩

/-- The record dict built at lines 147-152 for an accepted owner entry;
`owner.get("name") or login` falls back to the login when the name is absent,
null or empty. -/
def mkOrg (owner : Owner) (login : String) : OrgRec :=
  { login := login
    name :=
      match owner.name with
      | none => login
      | some n => if n = "" then login else n
    avatarUrl := owner.avatarUrl
    url := owner.url }

/-- The mutable state of the loop at lines 130-152: the insertion-ordered
`orgs` dict and the `orgs_with_public` set.  The set is represented by a list
whose only observation is membership (line 155 tests `in`), so repeated
insertion may keep duplicates without changing any observable. -/
structure FetchState where
  orgs : OrgMap
  orgs_with_public : List String
deriving Repr

/-- The body of the repository loop (lines 132-152).  The source updates
`orgs_with_public` before `orgs`; the two updates touch different fields, so
they are written as one record here. -/
def processEntry (username : String) (st : FetchState) (entry : RepoEntry) : FetchState :=
  match entry.owner.login with
  | none => st
  | some login =>
    if login = "" ∨ truthy entry.owner.avatarUrl = false then st
    else if pyLower login = pyLower username then st
    else
      { orgs :=
          if (lookupKey st.orgs login).isSome then st.orgs
          else st.orgs ++ [(login, mkOrg entry.owner login)]
        orgs_with_public :=
          if entry.isPrivate = false then login :: st.orgs_with_public
          else st.orgs_with_public }

/-- The three per-repository contribution lists, concatenated in the fixed
scan order of `contribution_types` (lines 124-131): commits, then pull
requests, then issues. -/
def allRepoEntries (c : Collection) : List RepoEntry :=
  c.commitContributionsByRepository ++ c.pullRequestContributionsByRepository
    ++ c.issueContributionsByRepository

/-- The state after the accumulation loop of lines 130-152. -/
def fetchState (username : String) (c : Collection) : FetchState :=
  (allRepoEntries c).foldl (processEntry username) ⟨[], []⟩

/-- Lines 120-155: the deduplicated records, restricted to organizations with
at least one public repository contribution (line 155). -/
def fetchOrgs (username : String) (c : Collection) : List OrgRec :=
  ((fetchState username c).orgs.map Prod.snd).filter
    (fun org => (fetchState username c).orgs_with_public.contains org.login)

/-- The HTTP response to the GraphQL query, as consumed by the script: the
status code, whether the parsed JSON body has a top-level `"errors"` key, and
the extracted `contributionsCollection` (lines 112-122, with the `.get(.., {})`
chain of line 122 already applied). -/
structure Response where
  status_code : Nat
  has_errors : Bool
  collection : Collection
deriving DecidableEq, Repr

/-- `get_contributions_for_year` (lines 38-155).  The source signature is
`(token, username, year)`; token and year only shape the outgoing request, so
the model abstracts the network round trip into the `Response` argument. -/
def get_contributions_for_year (response : Response) (username : String) : List OrgRec :=
  if response.status_code ≠ 200 then []
  else if response.has_errors then []
  else fetchOrgs username response.collection

/-- An owner entry passes the guards of lines 135-140 with login `lg`. -/
def validFor (username lg : String) (e : RepoEntry) : Prop :=
  e.owner.login = some lg ∧ lg ≠ "" ∧ truthy e.owner.avatarUrl = true ∧
    pyLower lg ≠ pyLower username

instance validFor.decidable (username lg : String) (e : RepoEntry) :
    Decidable (validFor username lg e) := by
  unfold validFor
  infer_instance

theorem validFor_login (username lg : String) (e : RepoEntry)
    (h : validFor username lg e) : e.owner.login = some lg := h.1

theorem processEntry_of_login_none (username : String) (st : FetchState) (e : RepoEntry)
    (h : e.owner.login = none) : processEntry username st e = st := by
  unfold processEntry
  rw [h]

theorem processEntry_of_login_some (username : String) (st : FetchState) (e : RepoEntry)
    (login : String) (h : e.owner.login = some login) :
    processEntry username st e =
      if login = "" ∨ truthy e.owner.avatarUrl = false then st
      else if pyLower login = pyLower username then st
      else
        { orgs :=
            if (lookupKey st.orgs login).isSome then st.orgs
            else st.orgs ++ [(login, mkOrg e.owner login)]
          orgs_with_public :=
            if e.isPrivate = false then login :: st.orgs_with_public
            else st.orgs_with_public } := by
  unfold processEntry
  rw [h]

/-- Either the entry is skipped (and no login validates it), or it passes the
guards with its own login and the state is updated as at lines 142-152. -/
theorem processEntry_cases (username : String) (st : FetchState) (e : RepoEntry) :
    (processEntry username st e = st ∧ ∀ lg, ¬ validFor username lg e) ∨
    ∃ lg, validFor username lg e ∧
      (processEntry username st e).orgs =
        (if (lookupKey st.orgs lg).isSome then st.orgs
         else st.orgs ++ [(lg, mkOrg e.owner lg)]) ∧
      (processEntry username st e).orgs_with_public =
        (if e.isPrivate = false then lg :: st.orgs_with_public
         else st.orgs_with_public) := by
  cases hlogin : e.owner.login with
  | none =>
    refine Or.inl ⟨processEntry_of_login_none username st e hlogin, fun lg hv => ?_⟩
    rw [hv.1] at hlogin
    exact Option.noConfusion hlogin
  | some login =>
    rw [processEntry_of_login_some username st e login hlogin]
    by_cases h1 : login = "" ∨ truthy e.owner.avatarUrl = false
    · rw [if_pos h1]
      refine Or.inl ⟨rfl, fun lg hv => ?_⟩
      obtain ⟨he, hne, hav, _⟩ := hv
      rw [he, Option.some.injEq] at hlogin
      subst hlogin
      rcases h1 with h1 | h1
      · exact hne h1
      · rw [hav] at h1; exact Bool.noConfusion h1
    · rw [if_neg h1]
      by_cases h2 : pyLower login = pyLower username
      · rw [if_pos h2]
        refine Or.inl ⟨rfl, fun lg hv => ?_⟩
        obtain ⟨he, _, _, hself⟩ := hv
        rw [he, Option.some.injEq] at hlogin
        subst hlogin
        exact hself h2
      · rw [if_neg h2]
        push_neg at h1
        refine Or.inr ⟨login, ⟨hlogin, h1.1, ?_, h2⟩, rfl, rfl⟩
        cases hav : truthy e.owner.avatarUrl with
        | false => exact absurd hav h1.2
        | true => rfl

/-! Invariants of the fetcher loop. -/

theorem mkOrg_login (owner : Owner) (login : String) : (mkOrg owner login).login = login := rfl

theorem lookupKey_append_some (d1 d2 : OrgMap) (k : String) (v : OrgRec)
    (h : lookupKey d1 k = some v) : lookupKey (d1 ++ d2) k = some v := by
  induction d1 with
  | nil => rw [lookupKey_nil] at h; exact Option.noConfusion h
  | cons kv rest ih =>
    obtain ⟨k', v'⟩ := kv
    by_cases hk : k' = k
    · subst hk
      rw [lookupKey_cons_self] at h
      rw [List.cons_append, lookupKey_cons_self]
      exact h
    · rw [lookupKey_cons_ne _ _ _ _ hk] at h
      rw [List.cons_append, lookupKey_cons_ne _ _ _ _ hk]
      exact ih h

theorem lookupKey_append_none (d1 d2 : OrgMap) (k : String)
    (h : lookupKey d1 k = none) : lookupKey (d1 ++ d2) k = lookupKey d2 k := by
  induction d1 with
  | nil => rfl
  | cons kv rest ih =>
    obtain ⟨k', v'⟩ := kv
    by_cases hk : k' = k
    · subst hk
      rw [lookupKey_cons_self] at h
      exact Option.noConfusion h
    · rw [lookupKey_cons_ne _ _ _ _ hk] at h
      rw [List.cons_append, lookupKey_cons_ne _ _ _ _ hk]
      exact ih h

theorem lookupKey_isSome_of_mem_keys (d : OrgMap) (k : String) (h : k ∈ mapKeys d) :
    (lookupKey d k).isSome = true := by
  induction d with
  | nil => simp [mapKeys] at h
  | cons kv rest ih =>
    obtain ⟨k', v'⟩ := kv
    by_cases hk : k' = k
    · subst hk
      rw [lookupKey_cons_self]
      rfl
    · rw [mapKeys, List.map_cons, List.mem_cons] at h
      rcases h with h | h
      · exact absurd h.symm hk
      · rw [lookupKey_cons_ne _ _ _ _ hk]
        exact ih h

/-- A login already bound in `orgs` keeps its record through the rest of the
loop (line 146: `if login not in orgs`). -/
theorem lookup_foldl_process_some (username : String) (l : List RepoEntry)
    (st : FetchState) (lg : String) (v : OrgRec) (h : lookupKey st.orgs lg = some v) :
    lookupKey ((l.foldl (processEntry username) st).orgs) lg = some v := by
  induction l generalizing st with
  | nil => exact h
  | cons e rest ih =>
    rw [List.foldl_cons]
    refine ih _ ?_
    rcases processEntry_cases username st e with ⟨heq, _⟩ | ⟨lg', hv, horgs, _⟩
    · rw [heq]
      exact h
    · rw [horgs]
      by_cases hsome : (lookupKey st.orgs lg').isSome
      · rw [if_pos hsome]
        exact h
      · rw [if_neg hsome]
        exact lookupKey_append_some _ _ _ _ h


/-- The record bound to an unbound login after the loop is built from the
first entry that passes the guards with that login. -/
theorem lookup_foldl_process_none (username : String) (l : List RepoEntry)
    (st : FetchState) (lg : String) (h : lookupKey st.orgs lg = none) :
    lookupKey ((l.foldl (processEntry username) st).orgs) lg
      = (l.find? (fun e => decide (validFor username lg e))).map
          (fun e => mkOrg e.owner lg) := by
  induction l generalizing st with
  | nil => simpa using h
  | cons e rest ih =>
    rw [List.foldl_cons]
    rcases processEntry_cases username st e with ⟨heq, hnone⟩ | ⟨lg', hv, horgs, _⟩
    · rw [heq, List.find?_cons_of_neg _ (by simpa using hnone lg)]
      exact ih st h
    · by_cases hlg : lg' = lg
      · subst hlg
        rw [List.find?_cons_of_pos _ (by simpa using hv)]
        have horgs' : lookupKey (processEntry username st e).orgs lg'
            = some (mkOrg e.owner lg') := by
          rw [horgs, if_neg (by rw [h]; simp), lookupKey_append_none _ _ _ h,
            lookupKey_cons_self]
        exact lookup_foldl_process_some username rest _ lg' _ horgs'
      · have hskip : ¬ (decide (validFor username lg e) = true) := by
          simp only [decide_eq_true_eq]
          intro hv2
          have h1 := hv2.1
          rw [hv.1, Option.some.injEq] at h1
          exact hlg h1
        have hfind : List.find? (fun x => decide (validFor username lg x)) (e :: rest)
            = List.find? (fun x => decide (validFor username lg x)) rest :=
          List.find?_cons_of_neg _ hskip
        rw [hfind]
        refine ih _ ?_
        rw [horgs]
        by_cases hsome : (lookupKey st.orgs lg').isSome
        · rw [if_pos hsome]
          exact h
        · rw [if_neg hsome, lookupKey_append_none _ _ _ h,
            lookupKey_cons_ne _ _ _ _ hlg, lookupKey_nil]

/-- A login is in `orgs_with_public` after the loop exactly when some entry
passes the guards with that login and a non-private repository (line 143). -/
theorem mem_pub_foldl_process (username : String) (l : List RepoEntry)
    (st : FetchState) (lg : String) :
    lg ∈ (l.foldl (processEntry username) st).orgs_with_public ↔
      lg ∈ st.orgs_with_public ∨
        ∃ e ∈ l, validFor username lg e ∧ e.isPrivate = false := by
  induction l generalizing st with
  | nil => simp
  | cons e rest ih =>
    rw [List.foldl_cons, ih]
    rcases processEntry_cases username st e with ⟨heq, hnone⟩ | ⟨lg', hv, _, hpub⟩
    · rw [heq]
      constructor
      · rintro (h | ⟨e', he', hv', hp'⟩)
        · exact Or.inl h
        · exact Or.inr ⟨e', List.mem_cons_of_mem _ he', hv', hp'⟩
      · rintro (h | ⟨e', he', hv', hp'⟩)
        · exact Or.inl h
        · rcases List.mem_cons.mp he' with rfl | he'
          · exact absurd hv' (hnone lg)
          · exact Or.inr ⟨e', he', hv', hp'⟩
    · rw [hpub]
      by_cases hp : e.isPrivate = false
      · rw [if_pos hp]
        constructor
        · rintro (h | ⟨e', he', hv', hp'⟩)
          · rcases List.mem_cons.mp h with rfl | h
            · exact Or.inr ⟨e, List.mem_cons_self _ _, hv, hp⟩
            · exact Or.inl h
          · exact Or.inr ⟨e', List.mem_cons_of_mem _ he', hv', hp'⟩
        · rintro (h | ⟨e', he', hv', hp'⟩)
          · exact Or.inl (List.mem_cons_of_mem _ h)
          · rcases List.mem_cons.mp he' with rfl | he'
            · have hlg : lg = lg' := by
                have h1 := hv'.1
                rw [hv.1, Option.some.injEq] at h1
                exact h1.symm
              subst hlg
              exact Or.inl (List.mem_cons_self _ _)
            · exact Or.inr ⟨e', he', hv', hp'⟩
      · rw [if_neg hp]
        constructor
        · rintro (h | ⟨e', he', hv', hp'⟩)
          · exact Or.inl h
          · exact Or.inr ⟨e', List.mem_cons_of_mem _ he', hv', hp'⟩
        · rintro (h | ⟨e', he', hv', hp'⟩)
          · exact Or.inl h
          · rcases List.mem_cons.mp he' with rfl | he'
            · exact absurd hp' hp
            · exact Or.inr ⟨e', he', hv', hp'⟩

/-- Every binding in `orgs` after the loop either was there initially or was
created at lines 146-152 from an entry that passed the guards. -/
theorem mem_orgs_foldl_process (username : String) (l : List RepoEntry) (st : FetchState)
    (kv : String × OrgRec) (h : kv ∈ (l.foldl (processEntry username) st).orgs) :
    kv ∈ st.orgs ∨ ∃ e ∈ l, validFor username kv.1 e ∧ kv.2 = mkOrg e.owner kv.1 := by
  induction l generalizing st with
  | nil => exact Or.inl h
  | cons e rest ih =>
    rw [List.foldl_cons] at h
    rcases ih _ h with h' | ⟨e', he', hv', heq'⟩
    · rcases processEntry_cases username st e with ⟨heq, _⟩ | ⟨lg', hv, horgs, _⟩
      · rw [heq] at h'
        exact Or.inl h'
      · rw [horgs] at h'
        by_cases hsome : (lookupKey st.orgs lg').isSome
        · rw [if_pos hsome] at h'
          exact Or.inl h'
        · rw [if_neg hsome] at h'
          rcases List.mem_append.mp h' with h'' | h''
          · exact Or.inl h''
          · rw [List.mem_singleton] at h''
            subst h''
            exact Or.inr ⟨e, List.mem_cons_self _ _, hv, rfl⟩
    · exact Or.inr ⟨e', List.mem_cons_of_mem _ he', hv', heq'⟩

theorem keysNodup_orgs_foldl_process (username : String) (l : List RepoEntry)
    (st : FetchState) (h : KeysNodup st.orgs) :
    KeysNodup ((l.foldl (processEntry username) st).orgs) := by
  induction l generalizing st with
  | nil => exact h
  | cons e rest ih =>
    rw [List.foldl_cons]
    refine ih _ ?_
    rcases processEntry_cases username st e with ⟨heq, _⟩ | ⟨lg', hv, horgs, _⟩
    · rw [heq]
      exact h
    · rw [KeysNodup, horgs]
      by_cases hsome : (lookupKey st.orgs lg').isSome
      · rw [if_pos hsome]
        exact h
      · rw [if_neg hsome, mapKeys, List.map_append]
        rw [List.nodup_append]
        refine ⟨h, List.nodup_singleton _, ?_⟩
        intro a ha hmem
        rw [List.map_cons, List.map_nil, List.mem_singleton] at hmem
        subst hmem
        rw [lookupKey_isSome_of_mem_keys st.orgs a ha] at hsome
        exact hsome rfl

theorem keyIsLogin_orgs_foldl_process (username : String) (l : List RepoEntry)
    (st : FetchState) (h : keyIsLogin st.orgs) :
    keyIsLogin ((l.foldl (processEntry username) st).orgs) := by
  induction l generalizing st with
  | nil => exact h
  | cons e rest ih =>
    rw [List.foldl_cons]
    refine ih _ ?_
    rcases processEntry_cases username st e with ⟨heq, _⟩ | ⟨lg', hv, horgs, _⟩
    · rw [heq]
      exact h
    · rw [horgs]
      by_cases hsome : (lookupKey st.orgs lg').isSome
      · rw [if_pos hsome]
        exact h
      · rw [if_neg hsome]
        intro kv hkv
        rcases List.mem_append.mp hkv with h' | h'
        · exact h kv h'
        · rw [List.mem_singleton] at h'
          subst h'
          rfl

theorem lookupKey_eq_some_of_mem (d : OrgMap) (k : String) (v : OrgRec)
    (hnd : KeysNodup d) (h : (k, v) ∈ d) : lookupKey d k = some v := by
  induction d with
  | nil => cases h
  | cons kv rest ih =>
    obtain ⟨k', v'⟩ := kv
    rw [KeysNodup, mapKeys, List.map_cons, List.nodup_cons] at hnd
    rcases List.mem_cons.mp h with heq | hmem
    · rw [Prod.mk.injEq] at heq
      obtain ⟨hk, hv⟩ := heq
      subst hk
      subst hv
      exact lookupKey_cons_self _ _ _
    · by_cases hk : k' = k
      · subst hk
        exact absurd (List.mem_map_of_mem Prod.fst hmem) hnd.1
      · rw [lookupKey_cons_ne _ _ _ _ hk]
        exact ih hnd.2 hmem

theorem contains_iff_mem (l : List String) (a : String) : l.contains a = true ↔ a ∈ l :=
  List.elem_iff

/-! Characterization of the fetcher output. -/

theorem lookupKey_fetchState (username : String) (c : Collection) (lg : String) :
    lookupKey (fetchState username c).orgs lg
      = ((allRepoEntries c).find? (fun e => decide (validFor username lg e))).map
          (fun e => mkOrg e.owner lg) :=
  lookup_foldl_process_none username (allRepoEntries c) ⟨[], []⟩ lg rfl

theorem mem_pub_fetchState (username : String) (c : Collection) (lg : String) :
    lg ∈ (fetchState username c).orgs_with_public ↔
      ∃ e ∈ allRepoEntries c, validFor username lg e ∧ e.isPrivate = false := by
  rw [fetchState, mem_pub_foldl_process]
  simp

theorem keyIsLogin_fetchState (username : String) (c : Collection) :
    keyIsLogin (fetchState username c).orgs :=
  keyIsLogin_orgs_foldl_process username (allRepoEntries c) ⟨[], []⟩
    fun kv h => absurd h (List.not_mem_nil kv)

theorem keysNodup_fetchState (username : String) (c : Collection) :
    KeysNodup (fetchState username c).orgs :=
  keysNodup_orgs_foldl_process username (allRepoEntries c) ⟨[], []⟩ List.nodup_nil

/-- A record is returned by the fetcher exactly when it is the record bound to
its own login in the final `orgs` dict and that login has a public
contribution. -/
theorem mem_fetchOrgs_iff (username : String) (c : Collection) (r : OrgRec) :
    r ∈ fetchOrgs username c ↔
      lookupKey (fetchState username c).orgs r.login = some r ∧
        r.login ∈ (fetchState username c).orgs_with_public := by
  unfold fetchOrgs
  rw [List.mem_filter, contains_iff_mem]
  constructor
  · rintro ⟨hmap, hpub⟩
    refine ⟨?_, hpub⟩
    rw [List.mem_map] at hmap
    obtain ⟨kv, hkv, hsnd⟩ := hmap
    have hlogin : kv.2.login = kv.1 := keyIsLogin_fetchState username c kv hkv
    subst hsnd
    rw [hlogin]
    refine lookupKey_eq_some_of_mem _ _ _ (keysNodup_fetchState username c) ?_
    have : (kv.1, kv.2) = kv := rfl
    rw [this]
    exact hkv
  · rintro ⟨hlook, hpub⟩
    refine ⟨?_, hpub⟩
    rw [List.mem_map]
    exact ⟨(r.login, r), mem_of_lookupKey_eq_some _ _ _ hlook, rfl⟩

/-- Every returned record originates from the first entry passing the guards
with its login. -/
theorem fetchOrgs_origin (username : String) (c : Collection) (r : OrgRec)
    (h : r ∈ fetchOrgs username c) :
    ∃ e, (allRepoEntries c).find? (fun x => decide (validFor username r.login x)) = some e ∧
      r = mkOrg e.owner r.login := by
  obtain ⟨hlook, _⟩ := (mem_fetchOrgs_iff username c r).mp h
  rw [lookupKey_fetchState] at hlook
  cases hfind : (allRepoEntries c).find? (fun x => decide (validFor username r.login x)) with
  | none =>
    rw [hfind] at hlook
    exact Option.noConfusion hlook
  | some e =>
    rw [hfind, Option.map_some', Option.some.injEq] at hlook
    exact ⟨e, rfl, hlook.symm⟩

/-!
The orchestrator `main` (lines 183-229) and the module-level import guard
(lines 26-30).  Effects are modelled explicitly:
* `responses t y` is the outcome of `requests.post` plus `response.json()` for
  token `t` and year `y`: `.ok r` when a parsed response comes back, and
  `.error ()` when the call raises (connection failure, non-JSON body, ...) —
  the script has no handler for such exceptions;
* `manualFile` is `none` when `manual-contributions.json` does not exist,
  `some (.error ())` when it exists but `json.load` raises, and
  `some (.ok d)` when it parses to `d`;
* an uncaught Python exception is the `.error` of the `Except` value and ends
  the process with a non-zero status.
-/

/-- `range(current_year, 2015, -1)` (line 191): years descending to 2016. -/
def years_to_fetch (current_year : Nat) : List Nat :=
  (List.range (current_year - 2015)).map (fun i => current_year - i)

/-- The inner union of lines 204-206: add each fetched org unless its login is
already present (first token to report a login wins). -/
def yearOrgsStep (year_orgs : OrgMap) (orgs : List OrgRec) : OrgMap :=
  orgs.foldl (fun yo org =>
    if (lookupKey yo org.login).isSome then yo else yo ++ [(org.login, org)]) year_orgs

/-- `get_contributions_for_year` as called from `main`: the HTTP round trip
may raise, which propagates. -/
def fetch_exc (resp : Except Unit Response) (username : String) :
    Except Unit (List OrgRec) :=
  match resp with
  | .error e => .error e
  | .ok r => .ok (get_contributions_for_year r username)

/-- The token loop of lines 202-206 for one year. -/
def runYearLoop (responses : String → Nat → Except Unit Response) (year : Nat)
    (username : String) (tokens : List String) (year_orgs : OrgMap) :
    Except Unit OrgMap :=
  match tokens with
  | [] => .ok year_orgs
  | token :: rest =>
    match fetch_exc (responses token year) username with
    | .error e => .error e
    | .ok orgs => runYearLoop responses year username rest (yearOrgsStep year_orgs orgs)

/-- Lines 199-213: fetch all tokens for one year; the stored bucket is
`list(year_orgs.values())` (the `else` branch stores `[]`, which is the same
value when the dict is empty). -/
def runYear (responses : String → Nat → Except Unit Response) (tokens : List String)
    (username : String) (year : Nat) : Except Unit (List OrgRec) :=
  match runYearLoop responses year username tokens [] with
  | .error e => .error e
  | .ok year_orgs => .ok (year_orgs.map Prod.snd)

/-- The year loop of lines 197-213, accumulating `all_contributions` in
insertion order. -/
def fetchYearsLoop (tokens : List String) (responses : String → Nat → Except Unit Response)
    (years : List Nat) (acc : Dataset) : Except Unit Dataset :=
  match years with
  | [] => .ok acc
  | year :: rest =>
    match runYear responses tokens GITHUB_USERNAME year with
    | .error e => .error e
    | .ok year_orgs => fetchYearsLoop tokens responses rest (acc ++ [(toString year, year_orgs)])

/-- Python string comparison `a < b`: lexicographic on code points. -/
def charListLt : List Char → List Char → Bool
  | [], [] => false
  | [], _ :: _ => true
  | _ :: _, [] => false
  | c :: cs, d :: ds =>
    if c.toNat < d.toNat then true
    else if d.toNat < c.toNat then false
    else charListLt cs ds

def strLt (a b : String) : Bool := charListLt a.data b.data

/-- Stable insertion into a list sorted descending by year key. -/
def insertYearDesc (p : String × List OrgRec) : Dataset → Dataset
  | [] => [p]
  | q :: rest => if strLt p.1 q.1 then q :: insertYearDesc p rest else p :: q :: rest

/-- `dict(sorted(all_contributions.items(), key=.., reverse=True))`
(line 222): stable sort, descending by year string. -/
def sortYearsDesc (d : Dataset) : Dataset :=
  d.foldr insertYearDesc []

/-- `main` (lines 183-229), returning the dataset written to the output file,
or the uncaught exception that terminated the run.  `tokens` is the
comma-split, stripped content of `GITHUB_TOKEN` (lines 184-185); splitting
never fails, so it is taken as input directly. -/
def mainRun (tokens : List String) (responses : String → Nat → Except Unit Response)
    (manualFile : Option (Except Unit Dataset)) (current_year : Nat) :
    Except Unit Dataset :=
  match fetchYearsLoop tokens responses (years_to_fetch current_year) [] with
  | .error e => .error e
  | .ok all_contributions =>
    match (match manualFile with
           | none => Except.ok ([] : Dataset)
           | some r => r) with
    | .error e => .error e
    | .ok manual =>
      .ok (sortYearsDesc
        (if manual ≠ [] then merge_contributions all_contributions manual
         else all_contributions))

/-- The process exit status: 1 when the `requests` import fails (lines 26-30),
1 when `main` raises an uncaught exception, 0 otherwise. -/
def programExit (requests_available : Bool) (tokens : List String)
    (responses : String → Nat → Except Unit Response)
    (manualFile : Option (Except Unit Dataset)) (current_year : Nat) : Nat :=
  if requests_available = false then 1
  else
    match mainRun tokens responses manualFile current_year with
    | .ok _ => 0
    | .error _ => 1

/-! Controlled unfolding of `mainRun` by the outcome of its two effects. -/

theorem mainRun_error_fetch (tokens : List String)
    (responses : String → Nat → Except Unit Response)
    (manualFile : Option (Except Unit Dataset)) (current_year : Nat) (e : Unit)
    (h : fetchYearsLoop tokens responses (years_to_fetch current_year) [] = .error e) :
    mainRun tokens responses manualFile current_year = .error e := by
  unfold mainRun
  rw [h]

theorem mainRun_ok_none (tokens : List String)
    (responses : String → Nat → Except Unit Response) (current_year : Nat) (all : Dataset)
    (h : fetchYearsLoop tokens responses (years_to_fetch current_year) [] = .ok all) :
    mainRun tokens responses none current_year = .ok (sortYearsDesc all) := by
  unfold mainRun
  rw [h]
  rfl

theorem mainRun_error_manual (tokens : List String)
    (responses : String → Nat → Except Unit Response) (current_year : Nat) (all : Dataset)
    (e : Unit)
    (h : fetchYearsLoop tokens responses (years_to_fetch current_year) [] = .ok all) :
    mainRun tokens responses (some (Except.error e)) current_year = .error e := by
  unfold mainRun
  rw [h]

theorem mainRun_ok_manual (tokens : List String)
    (responses : String → Nat → Except Unit Response) (current_year : Nat) (all d : Dataset)
    (h : fetchYearsLoop tokens responses (years_to_fetch current_year) [] = .ok all) :
    mainRun tokens responses (some (Except.ok d)) current_year
      = .ok (sortYearsDesc
          (if d ≠ [] then merge_contributions all d else all)) := by
  unfold mainRun
  rw [h]

theorem mem_years_to_fetch (current_year y : Nat) (h1 : 2016 ≤ y) (h2 : y ≤ current_year) :
    y ∈ years_to_fetch current_year := by
  rw [years_to_fetch, List.mem_map]
  refine ⟨current_year - y, ?_, by omega⟩
  rw [List.mem_range]
  omega

theorem runYear_nil_tokens (responses : String → Nat → Except Unit Response)
    (username : String) (year : Nat) : runYear responses [] username year = .ok [] := rfl

theorem runYearLoop_ok (responses : String → Nat → Except Unit Response) (year : Nat)
    (username : String) (tokens : List String) (init : OrgMap)
    (hresp : ∀ t ∈ tokens, ∃ r, responses t year = Except.ok r) :
    ∃ m, runYearLoop responses year username tokens init = .ok m := by
  induction tokens generalizing init with
  | nil => exact ⟨init, rfl⟩
  | cons t rest ih =>
    obtain ⟨r, hr⟩ := hresp t (List.mem_cons_self _ _)
    obtain ⟨m, hm⟩ := ih (yearOrgsStep init (get_contributions_for_year r username))
      fun t' ht' => hresp t' (List.mem_cons_of_mem _ ht')
    refine ⟨m, ?_⟩
    simp only [runYearLoop, hr, fetch_exc]
    exact hm

theorem runYear_ok (responses : String → Nat → Except Unit Response) (tokens : List String)
    (username : String) (year : Nat)
    (hresp : ∀ t ∈ tokens, ∃ r, responses t year = Except.ok r) :
    ∃ l, runYear responses tokens username year = .ok l := by
  obtain ⟨m, hm⟩ := runYearLoop_ok responses year username tokens [] hresp
  refine ⟨m.map Prod.snd, ?_⟩
  simp only [runYear, hm]

theorem fetchYearsLoop_ok (tokens : List String)
    (responses : String → Nat → Except Unit Response) (years : List Nat) (acc : Dataset)
    (hresp : ∀ t ∈ tokens, ∀ y ∈ years, ∃ r, responses t y = Except.ok r) :
    ∃ out, fetchYearsLoop tokens responses years acc = .ok out := by
  induction years generalizing acc with
  | nil => exact ⟨acc, rfl⟩
  | cons y rest ih =>
    obtain ⟨l, hl⟩ := runYear_ok responses tokens GITHUB_USERNAME y
      fun t ht => hresp t ht y (List.mem_cons_self _ _)
    obtain ⟨out, hout⟩ := ih (acc ++ [(toString y, l)])
      fun t ht y' hy' => hresp t ht y' (List.mem_cons_of_mem _ hy')
    refine ⟨out, ?_⟩
    simp only [fetchYearsLoop, hl]
    exact hout

theorem fetchYearsLoop_acc_sub (tokens : List String)
    (responses : String → Nat → Except Unit Response) (years : List Nat) (acc out : Dataset)
    (h : fetchYearsLoop tokens responses years acc = .ok out) : ∀ p ∈ acc, p ∈ out := by
  induction years generalizing acc with
  | nil =>
    simp only [fetchYearsLoop, Except.ok.injEq] at h
    subst h
    exact fun p hp => hp
  | cons y rest ih =>
    cases hr : runYear responses tokens GITHUB_USERNAME y with
    | error e =>
      simp only [fetchYearsLoop, hr] at h
      exact Except.noConfusion h
    | ok l =>
      simp only [fetchYearsLoop, hr] at h
      exact fun p hp => ih _ h p (List.mem_append_left _ hp)

theorem fetchYearsLoop_entries (tokens : List String)
    (responses : String → Nat → Except Unit Response) (years : List Nat) (acc out : Dataset)
    (h : fetchYearsLoop tokens responses years acc = .ok out) :
    ∀ p ∈ out, p ∈ acc ∨ ∃ y ∈ years, (p : String × List OrgRec).1 = toString y ∧
      runYear responses tokens GITHUB_USERNAME y = .ok p.2 := by
  induction years generalizing acc with
  | nil =>
    simp only [fetchYearsLoop, Except.ok.injEq] at h
    subst h
    exact fun p hp => Or.inl hp
  | cons y rest ih =>
    intro p hp
    cases hr : runYear responses tokens GITHUB_USERNAME y with
    | error e =>
      simp only [fetchYearsLoop, hr] at h
      exact Except.noConfusion h
    | ok l =>
      simp only [fetchYearsLoop, hr] at h
      rcases ih _ h p hp with hacc | ⟨y', hy', hkey, hrun⟩
      · rcases List.mem_append.mp hacc with h1 | h1
        · exact Or.inl h1
        · rw [List.mem_singleton] at h1
          subst h1
          exact Or.inr ⟨y, List.mem_cons_self _ _, rfl, hr⟩
      · exact Or.inr ⟨y', List.mem_cons_of_mem _ hy', hkey, hrun⟩

theorem fetchYearsLoop_key_mem (tokens : List String)
    (responses : String → Nat → Except Unit Response) (years : List Nat) (acc out : Dataset)
    (h : fetchYearsLoop tokens responses years acc = .ok out) (y : Nat) (hy : y ∈ years) :
    toString y ∈ out.keys := by
  induction years generalizing acc with
  | nil => cases hy
  | cons y0 rest ih =>
    cases hr : runYear responses tokens GITHUB_USERNAME y0 with
    | error e =>
      simp only [fetchYearsLoop, hr] at h
      exact Except.noConfusion h
    | ok l =>
      simp only [fetchYearsLoop, hr] at h
      rcases List.mem_cons.mp hy with rfl | hy'
      · have hmem := fetchYearsLoop_acc_sub _ _ _ _ _ h (toString y, l)
          (List.mem_append_right _ (List.mem_singleton.mpr rfl))
        rw [Dataset.keys]
        exact List.mem_map_of_mem Prod.fst hmem
      · exact ih _ h hy'

/-! The final sort by descending year key. -/

theorem mem_insertYearDesc (p x : String × List OrgRec) (l : Dataset) :
    x ∈ insertYearDesc p l ↔ x = p ∨ x ∈ l := by
  induction l with
  | nil => simp [insertYearDesc]
  | cons q rest ih =>
    simp only [insertYearDesc]
    by_cases hc : strLt p.1 q.1 = true
    · rw [if_pos hc]
      simp only [List.mem_cons, ih]
      tauto
    · rw [if_neg hc]
      simp only [List.mem_cons]

theorem mem_sortYearsDesc (d : Dataset) (x : String × List OrgRec) :
    x ∈ sortYearsDesc d ↔ x ∈ d := by
  induction d with
  | nil => simp [sortYearsDesc]
  | cons p rest ih =>
    rw [sortYearsDesc, List.foldr_cons, mem_insertYearDesc]
    rw [sortYearsDesc] at ih
    rw [ih, List.mem_cons]

theorem mem_keys_sortYearsDesc (d : Dataset) (y : String) :
    y ∈ (sortYearsDesc d).keys ↔ y ∈ d.keys := by
  rw [Dataset.keys, Dataset.keys]
  constructor
  · intro h
    rw [List.mem_map] at h ⊢
    obtain ⟨p, hp, he⟩ := h
    exact ⟨p, (mem_sortYearsDesc d p).mp hp, he⟩
  · intro h
    rw [List.mem_map] at h ⊢
    obtain ⟨p, hp, he⟩ := h
    exact ⟨p, (mem_sortYearsDesc d p).mpr hp, he⟩

/-! Further dataset lookup lemmas. -/

theorem dataset_get_isSome_of_mem_keys (d : Dataset) (y : String) (h : y ∈ d.keys) :
    (d.get y).isSome = true := by
  induction d with
  | nil => simp [Dataset.keys] at h
  | cons p rest ih =>
    obtain ⟨y', l⟩ := p
    simp only [Dataset.get]
    by_cases hy : y' = y
    · rw [if_pos hy]
      rfl
    · rw [if_neg hy]
      rw [Dataset.keys, List.map_cons, List.mem_cons] at h
      rcases h with h | h
      · exact absurd h.symm hy
      · exact ih h

theorem dataset_mem_of_get_eq_some (d : Dataset) (y : String) (v : List OrgRec)
    (h : d.get y = some v) : (y, v) ∈ d := by
  induction d with
  | nil => simp [Dataset.get] at h
  | cons p rest ih =>
    obtain ⟨y', l⟩ := p
    simp only [Dataset.get] at h
    by_cases hy : y' = y
    · rw [if_pos hy] at h
      subst hy
      rw [Option.some.injEq] at h
      subst h
      exact List.mem_cons_self _ _
    · rw [if_neg hy] at h
      exact List.mem_cons_of_mem _ (ih h)

theorem dataset_get_eq_some_of_all (d : Dataset) (y : String) (v : List OrgRec)
    (hk : y ∈ d.keys) (hall : ∀ p ∈ d, (p : String × List OrgRec).1 = y → p.2 = v) :
    d.get y = some v := by
  induction d with
  | nil => simp [Dataset.keys] at hk
  | cons p rest ih =>
    obtain ⟨y', l⟩ := p
    simp only [Dataset.get]
    by_cases hy : y' = y
    · rw [if_pos hy]
      rw [show l = v from hall (y', l) (List.mem_cons_self _ _) hy]
    · rw [if_neg hy]
      refine ih ?_ fun p hp hpy => hall p (List.mem_cons_of_mem _ hp) hpy
      rw [Dataset.keys, List.map_cons, List.mem_cons] at hk
      rcases hk with h | h
      · exact absurd h.symm hy
      · exact h

theorem merge_contributions_entry (A B : Dataset) (p : String × List OrgRec)
    (h : p ∈ merge_contributions A B) :
    p.2 = mergeYear (A.getD p.1) (B.getD p.1) := by
  unfold merge_contributions at h
  rw [List.mem_map] at h
  obtain ⟨year, hy, he⟩ := h
  subst he
  rfl

theorem dataset_getD_eq_nil_of_all (d : Dataset) (y : String)
    (hall : ∀ p ∈ d, (p : String × List OrgRec).2 = []) : d.getD y = [] := by
  rw [Dataset.getD]
  cases hg : d.get y with
  | none => rfl
  | some v =>
    rw [Option.getD_some]
    exact hall (y, v) (dataset_mem_of_get_eq_some d y v hg)

theorem mergeYear_nil_nil : mergeYear [] [] = [] := rfl

/-! Concrete instances used by the witnesses below. -/

/-- An empty contributions collection. -/
def emptyCollection : Collection := ⟨[], [], []⟩

/-- A failed HTTP response. -/
def errResponse : Response := ⟨500, false, emptyCollection⟩

/-- A public repository entry owned by organization `acme`. -/
def acmeEntry : RepoEntry :=
  ⟨⟨some "acme", some "Acme Corp", some "https://a/acme.png", some "https://github.com/acme"⟩,
    false⟩

/-- A collection with the single public `acme` entry among the commit
contributions. -/
def sampleCollection : Collection := ⟨[acmeEntry], [], []⟩

/-- A successful response carrying `sampleCollection`. -/
def okResponse : Response := ⟨200, false, sampleCollection⟩

/-- The record the fetcher builds for `acmeEntry`. -/
def acmeOrg : OrgRec := mkOrg acmeEntry.owner "acme"

/-- The same owner as `acmeEntry`, but on a private repository. -/
def privEntry : RepoEntry := ⟨acmeEntry.owner, true⟩

def privCollection : Collection := ⟨[privEntry], [], []⟩

def privResponse : Response := ⟨200, false, privCollection⟩

/-- An entry whose owner has no display name. -/
def anonEntry : RepoEntry := ⟨⟨some "anon", none, some "https://a/anon.png", none⟩, false⟩

def anonCollection : Collection := ⟨[anonEntry], [], []⟩

/-! Unfolding helpers for the fetcher wrapper. -/

theorem get_contributions_ok (resp : Response) (username : String)
    (h200 : resp.status_code = 200) (herr : resp.has_errors = false) :
    get_contributions_for_year resp username = fetchOrgs username resp.collection := by
  unfold get_contributions_for_year
  rw [if_neg (fun hne => hne h200), if_neg (by rw [herr]; exact Bool.false_ne_true)]

theorem get_contributions_cases (resp : Response) (username : String) :
    get_contributions_for_year resp username = [] ∨
    get_contributions_for_year resp username = fetchOrgs username resp.collection := by
  unfold get_contributions_for_year
  by_cases h1 : resp.status_code ≠ 200
  · rw [if_pos h1]
    exact Or.inl rfl
  · rw [if_neg h1]
    by_cases h2 : resp.has_errors = true
    · rw [if_pos h2]
      exact Or.inl rfl
    · rw [if_neg h2]
      exact Or.inr rfl

/-- C6: a non-success HTTP status (line 112) or a body with a top-level
`"errors"` key (line 117) makes `get_contributions_for_year` return the empty
list.  The embedding is a total function of a single response, reflecting
that the source neither catches exceptions past these checks nor retries. -/
theorem c6_error_response_empty (resp : Response) (username : String)
    (h : resp.status_code ≠ 200 ∨ resp.has_errors = true) :
    get_contributions_for_year resp username = [] := by
  unfold get_contributions_for_year
  by_cases h1 : resp.status_code ≠ 200
  · rw [if_pos h1]
  · rw [if_neg h1]
    rcases h with h | h
    · exact absurd h h1
    · rw [if_pos h]

theorem c6_error_response_empty_witness :
    (errResponse.status_code ≠ 200 ∨ errResponse.has_errors = true) ∧
      get_contributions_for_year errResponse "user" = [] :=
  ⟨Or.inl (by decide), c6_error_response_empty errResponse "user" (Or.inl (by decide))⟩

/-- C7: an owner entry whose login equals the subject username up to
lowercasing is skipped (lines 139-140), so no returned record carries such a
login. -/
theorem c7_self_exclusion (resp : Response) (username : String) (r : OrgRec)
    (h : r ∈ get_contributions_for_year resp username) :
    pyLower r.login ≠ pyLower username := by
  rcases get_contributions_cases resp username with he | he
  · rw [he] at h
    exact absurd h (List.not_mem_nil r)
  · rw [he] at h
    obtain ⟨e, hfind, hr⟩ := fetchOrgs_origin username resp.collection r h
    have hv : validFor username r.login e := by
      have hsome := List.find?_some hfind
      simpa using hsome
    exact hv.2.2.2

theorem c7_self_exclusion_witness :
    acmeOrg ∈ get_contributions_for_year okResponse "user" ∧
      pyLower acmeOrg.login ≠ pyLower "user" :=
  ⟨by decide, c7_self_exclusion okResponse "user" acmeOrg (by decide)⟩

/-- C4: an organization whose observed entries are all private is absent from
the returned list (its login never enters `orgs_with_public`, line 143), while
an organization with a guard-passing non-private entry is present
(line 155). -/
theorem c4_public_visibility_filter (resp : Response) (username lg : String) :
    ((∀ e ∈ allRepoEntries resp.collection, e.owner.login = some lg → e.isPrivate = true) →
      ∀ r ∈ get_contributions_for_year resp username, r.login ≠ lg) ∧
    (resp.status_code = 200 → resp.has_errors = false →
      ∀ e ∈ allRepoEntries resp.collection, validFor username lg e → e.isPrivate = false →
        ∃ r ∈ get_contributions_for_year resp username, r.login = lg) := by
  constructor
  · intro hall r hr hlg
    rcases get_contributions_cases resp username with he | he
    · rw [he] at hr
      exact absurd hr (List.not_mem_nil r)
    · rw [he] at hr
      obtain ⟨_, hpub⟩ := (mem_fetchOrgs_iff username resp.collection r).mp hr
      obtain ⟨e, hmem, hv, hpriv⟩ :=
        (mem_pub_fetchState username resp.collection r.login).mp hpub
      have hprivT := hall e hmem (by rw [hv.1, hlg])
      rw [hprivT] at hpriv
      exact Bool.noConfusion hpriv
  · intro h200 herr e hmem hv hpriv
    rw [get_contributions_ok resp username h200 herr]
    have hpub : lg ∈ (fetchState username resp.collection).orgs_with_public :=
      (mem_pub_fetchState username resp.collection lg).mpr ⟨e, hmem, hv, hpriv⟩
    cases hfind : (allRepoEntries resp.collection).find?
        (fun x => decide (validFor username lg x)) with
    | none =>
      rw [List.find?_eq_none] at hfind
      exact absurd (by simpa using hv) (hfind e hmem)
    | some e' =>
      refine ⟨mkOrg e'.owner lg, ?_, rfl⟩
      apply (mem_fetchOrgs_iff username resp.collection _).mpr
      constructor
      · rw [mkOrg_login, lookupKey_fetchState, hfind, Option.map_some']
      · rw [mkOrg_login]
        exact hpub

theorem c4_public_visibility_filter_witness :
    (∀ r ∈ get_contributions_for_year privResponse "user", r.login ≠ "acme") ∧
    (∃ r ∈ get_contributions_for_year okResponse "user", r.login = "acme") :=
  ⟨(c4_public_visibility_filter privResponse "user" "acme").1 (by decide),
   (c4_public_visibility_filter okResponse "user" "acme").2 rfl rfl acmeEntry (by decide)
     (by decide) rfl⟩

/-- C9: a single fetch returns each login at most once; each record is built
from the first guard-passing entry with its login, scanning commits, then
pull requests, then issues (lines 124-131, 146-152); the has-public flag is
accumulated over all entries of that owner (line 143). -/
theorem c9_single_fetch_dedup (username : String) (c : Collection) :
    ((fetchOrgs username c).map OrgRec.login).Nodup ∧
    ∀ r ∈ fetchOrgs username c,
      (∃ e, (allRepoEntries c).find? (fun x => decide (validFor username r.login x)) = some e ∧
        r = mkOrg e.owner r.login) ∧
      ∃ e' ∈ allRepoEntries c, validFor username r.login e' ∧ e'.isPrivate = false := by
  constructor
  · have h1 : (((fetchState username c).orgs.map Prod.snd).map OrgRec.login).Nodup := by
      rw [map_login_map_snd _ (keyIsLogin_fetchState username c)]
      exact keysNodup_fetchState username c
    exact List.Nodup.sublist (List.Sublist.map OrgRec.login (List.filter_sublist _)) h1
  · intro r hr
    refine ⟨fetchOrgs_origin username c r hr, ?_⟩
    obtain ⟨_, hpub⟩ := (mem_fetchOrgs_iff username c r).mp hr
    exact (mem_pub_fetchState username c r.login).mp hpub

theorem c9_single_fetch_dedup_witness :
    ((fetchOrgs "user" sampleCollection).map OrgRec.login).Nodup ∧
    ((∃ e, (allRepoEntries sampleCollection).find?
          (fun x => decide (validFor "user" acmeOrg.login x)) = some e ∧
        acmeOrg = mkOrg e.owner acmeOrg.login) ∧
      ∃ e' ∈ allRepoEntries sampleCollection, validFor "user" acmeOrg.login e' ∧
        e'.isPrivate = false) :=
  ⟨(c9_single_fetch_dedup "user" sampleCollection).1,
   (c9_single_fetch_dedup "user" sampleCollection).2 acmeOrg (by decide)⟩

/-- C10: an accepted owner entry with an absent, null or empty display name
yields a record whose `name` equals its login (`owner.get("name") or login`,
line 149); the entry is not skipped, since the guards never look at the
name. -/
theorem c10_name_fallback (username lg : String) (c : Collection) (e : RepoEntry)
    (hfind : (allRepoEntries c).find? (fun x => decide (validFor username lg x)) = some e)
    (hname : e.owner.name = none ∨ e.owner.name = some "")
    (hpub : ∃ e' ∈ allRepoEntries c, validFor username lg e' ∧ e'.isPrivate = false) :
    ∃ r ∈ fetchOrgs username c, r.login = lg ∧ r.name = lg := by
  refine ⟨mkOrg e.owner lg, ?_, rfl, ?_⟩
  · apply (mem_fetchOrgs_iff username c _).mpr
    constructor
    · rw [mkOrg_login, lookupKey_fetchState, hfind, Option.map_some']
    · rw [mkOrg_login]
      exact (mem_pub_fetchState username c lg).mpr hpub
  · rcases hname with h | h <;> simp [mkOrg, h]

theorem c10_name_fallback_witness :
    ((allRepoEntries anonCollection).find?
        (fun x => decide (validFor "user" "anon" x)) = some anonEntry) ∧
    ∃ r ∈ fetchOrgs "user" anonCollection, r.login = "anon" ∧ r.name = "anon" :=
  ⟨by decide,
   c10_name_fallback "user" "anon" anonCollection anonEntry (by decide) (Or.inl rfl)
     ⟨anonEntry, by decide, by decide, rfl⟩⟩

/-! The merge claims. -/

/-- An automatic record with upper-case login. -/
def orgAcmeUpper : OrgRec :=
  ⟨"Acme", "Acme Corp", some "https://a/acme.png", some "https://github.com/Acme"⟩

/-- A manual record for the same organization spelled lower-case. -/
def orgAcmeLower : OrgRec :=
  ⟨"acme", "acme overridden", some "https://a/acme2.png", some "https://github.com/acme"⟩

/-- An automatic record colliding with `orgAcmeLower` on the exact login. -/
def autoAcme : OrgRec :=
  ⟨"acme", "Acme (auto)", some "https://a/auto.png", some "https://github.com/acme"⟩

/-- The property claimed of merged datasets: within each year bucket, the
lowercased logins are pairwise distinct. -/
def lowercaseLoginsDistinct (d : Dataset) : Prop :=
  ∀ y l, d.get y = some l → (l.map (fun o => pyLower (OrgRec.login o))).Nodup

/-- C1 counterexample: `merge_contributions` keys its dicts by the exact
`org["login"]` (lines 173-174), not its lowercase form, so an automatic
record `Acme` and a manual record `acme` both survive the merge and their
lowercased logins collide within the year. -/
theorem c1_lowercase_identity_counterexample :
    ¬ lowercaseLoginsDistinct
        (merge_contributions [("2020", [orgAcmeUpper])] [("2020", [orgAcmeLower])]) :=
  fun h => absurd (h "2020" [orgAcmeUpper, orgAcmeLower] (by decide)) (by decide)

/-- C1 (amended): organization identity in the merge is the exact,
case-sensitive identifier: within each year of the merged dataset the logins
are pairwise distinct, but two records differing only in identifier case are
distinct organizations and may coexist. -/
theorem c1_exact_login_identity (A B : Dataset) (y : String) (l : List OrgRec)
    (h : (merge_contributions A B).get y = some l) :
    (l.map OrgRec.login).Nodup := by
  rw [merge_contributions_get] at h
  by_cases hy : y ∈ allYears A B
  · rw [if_pos hy, Option.some.injEq] at h
    subst h
    exact mergeYear_logins_nodup _ _
  · rw [if_neg hy] at h
    exact Option.noConfusion h

theorem c1_exact_login_identity_witness :
    (merge_contributions [("2020", [orgAcmeUpper])] [("2020", [orgAcmeLower])]).get "2020"
        = some [orgAcmeUpper, orgAcmeLower] ∧
      (([orgAcmeUpper, orgAcmeLower] : List OrgRec).map OrgRec.login).Nodup :=
  ⟨by decide,
   c1_exact_login_identity [("2020", [orgAcmeUpper])] [("2020", [orgAcmeLower])] "2020"
     [orgAcmeUpper, orgAcmeLower] (by decide)⟩

/-- C2: merging a second time with the same manual dataset changes nothing:
at every year label, `merge(merge(A,B),B)` and `merge(A,B)` agree — Python
dict equality together with the order of the records inside each year's
list. -/
theorem c2_merge_idempotent (A B : Dataset) (y : String) :
    (merge_contributions (merge_contributions A B) B).get y
      = (merge_contributions A B).get y := by
  rw [merge_contributions_get, merge_contributions_get]
  have hkeys : (y ∈ allYears (merge_contributions A B) B) ↔ y ∈ allYears A B := by
    rw [mem_allYears, keys_merge_contributions, mem_allYears]
    tauto
  by_cases hy : y ∈ allYears A B
  · rw [if_pos (hkeys.mpr hy), if_pos hy]
    have hgetD : (merge_contributions A B).getD y = mergeYear (A.getD y) (B.getD y) := by
      rw [Dataset.getD, merge_contributions_get, if_pos hy, Option.getD_some]
    rw [hgetD, mergeYear_idem]
  · rw [if_neg (fun h => hy (hkeys.mp h)), if_neg hy]

/-- C3: a manual record replaces the automatic record with the same login
wholesale (`{**auto_orgs, **manual_orgs}`, line 177): looked up by login in
the merged year bucket, the record is the manual one in every field. -/
theorem c3_manual_precedence (A B : Dataset) (y : String) (al ml : List OrgRec)
    (lg : String) (ra rm : OrgRec)
    (hA : A.get y = some al) (hB : B.get y = some ml)
    (hra : lookupKey (dictOfList al) lg = some ra)
    (hrm : lookupKey (dictOfList ml) lg = some rm) :
    ∃ merged, (merge_contributions A B).get y = some merged ∧
      merged.find? (fun o => o.login == lg) = some rm := by
  have hy : y ∈ allYears A B :=
    (mem_allYears A B y).mpr (Or.inl (mem_keys_of_get_eq_some A y al hA))
  refine ⟨mergeYear (A.getD y) (B.getD y),
    by rw [merge_contributions_get, if_pos hy], ?_⟩
  have hgA : A.getD y = al := by rw [Dataset.getD, hA, Option.getD_some]
  have hgB : B.getD y = ml := by rw [Dataset.getD, hB, Option.getD_some]
  rw [hgA, hgB]
  unfold mergeYear
  rw [find?_map_snd_eq_lookupKey _ (keyIsLogin_mergeMap al ml) lg]
  exact lookupKey_pyUnion_mem _ _ _ _ (keysNodup_dictOfList ml)
    (mem_of_lookupKey_eq_some _ _ _ hrm)

theorem c3_manual_precedence_witness :
    lookupKey (dictOfList [autoAcme]) "acme" = some autoAcme ∧
    lookupKey (dictOfList [orgAcmeLower]) "acme" = some orgAcmeLower ∧
    ∃ merged,
      (merge_contributions [("2021", [autoAcme])] [("2021", [orgAcmeLower])]).get "2021"
          = some merged ∧
        merged.find? (fun o => o.login == "acme") = some orgAcmeLower :=
  ⟨by decide, by decide,
   c3_manual_precedence _ _ "2021" [autoAcme] [orgAcmeLower] "acme" autoAcme orgAcmeLower
     (by decide) (by decide) (by decide) (by decide)⟩

/-! The process-level claims. -/

/-- C5 counterexample: with the client dependency available, no credentials
configured, and a manual file that exists but fails to parse, the run dies on
the uncaught `json.load` exception and the process exits 1, refuting
"non-zero only when the dependency is unavailable". -/
theorem c5_exit_nonzero_counterexample :
    programExit true [] (fun _ _ => Except.error ()) (some (Except.error ())) 2017 = 1 := rfl

/-- C5 (amended): the process exits non-zero when the client dependency is
unavailable at startup, and also when an uncaught exception ends the run — a
fetch whose HTTP call raises, or a manual file that exists but fails to
parse.  When the dependency is available, every issued request returns a
response, and the manual file is absent or parses, the run completes and
exits zero — regardless of error statuses or error bodies in those
responses. -/
theorem c5_exit_status (requests_available : Bool) (tokens : List String)
    (responses : String → Nat → Except Unit Response)
    (manualFile : Option (Except Unit Dataset)) (current_year : Nat)
    (hresp : ∀ t y, ∃ r, responses t y = Except.ok r)
    (hmanual : manualFile ≠ some (Except.error ())) :
    programExit requests_available tokens responses manualFile current_year
      = if requests_available = true then 0 else 1 := by
  cases requests_available with
  | false => rfl
  | true =>
    rw [if_pos rfl, programExit, if_neg (by decide : ¬ (true : Bool) = false)]
    obtain ⟨all, hall⟩ := fetchYearsLoop_ok tokens responses (years_to_fetch current_year) []
      fun t _ y _ => hresp t y
    cases hmf : manualFile with
    | none => rw [mainRun_ok_none tokens responses current_year all hall]
    | some r =>
      cases r with
      | error e =>
        cases e
        exact absurd hmf hmanual
      | ok d => rw [mainRun_ok_manual tokens responses current_year all d hall]

theorem c5_exit_status_witness :
    (∀ t y, ∃ r, (fun (_ : String) (_ : Nat) => (Except.ok errResponse : Except Unit Response)) t y
        = Except.ok r) ∧
    programExit true ["token1"] (fun _ _ => Except.ok errResponse) none 2017
      = if (true : Bool) = true then 0 else 1 :=
  ⟨fun _ _ => ⟨errResponse, rfl⟩,
   c5_exit_status true ["token1"] (fun _ _ => Except.ok errResponse) none 2017
     (fun _ _ => ⟨errResponse, rfl⟩) (fun h => Option.noConfusion h)⟩

/-! Helper lemmas for C8. -/

theorem fetchYears_values_nil (responses : String → Nat → Except Unit Response)
    (years : List Nat) (all : Dataset)
    (hfy : fetchYearsLoop [] responses years [] = .ok all) :
    ∀ p ∈ all, (p : String × List OrgRec).2 = [] := by
  intro p hp
  rcases fetchYearsLoop_entries _ _ _ _ _ hfy p hp with h0 | ⟨y', hy', hk, hr⟩
  · exact absurd h0 (List.not_mem_nil p)
  · rw [runYear_nil_tokens] at hr
    injection hr with hr
    exact hr.symm

theorem sorted_get_nil (dd : Dataset) (y : String)
    (hkey : y ∈ dd.keys) (hall : ∀ p ∈ dd, (p : String × List OrgRec).1 = y → p.2 = []) :
    (sortYearsDesc dd).get y = some [] := by
  refine dataset_get_eq_some_of_all _ _ _ ((mem_keys_sortYearsDesc dd y).mpr hkey) ?_
  exact fun p hp hpy => hall p ((mem_sortYearsDesc dd p).mp hp) hpy

theorem merged_key_mem (all d : Dataset) (ystr : String) (hkey : ystr ∈ all.keys) :
    ystr ∈ (merge_contributions all d).keys := by
  rw [keys_merge_contributions]
  exact (mem_allYears all d ystr).mpr (Or.inl hkey)

theorem merged_bucket_nil (all d : Dataset) (ystr : String)
    (hkey : ystr ∈ all.keys)
    (hvals : ∀ p ∈ all, (p : String × List OrgRec).2 = [])
    (hd : d.get ystr = none ∨ d.get ystr = some []) :
    (sortYearsDesc (merge_contributions all d)).get ystr = some [] := by
  refine sorted_get_nil _ _ (merged_key_mem all d ystr hkey) ?_
  intro p hp hpy
  have hval := merge_contributions_entry all d p hp
  rw [hpy] at hval
  have hga : all.getD ystr = [] := dataset_getD_eq_nil_of_all all ystr hvals
  have hgd : d.getD ystr = [] := by
    rw [Dataset.getD]
    rcases hd with h | h <;> rw [h] <;> rfl
  rw [hga, hgd, mergeYear_nil_nil] at hval
  exact hval

/-- C8: a successful run writes a bucket for every year from the current year
down to 2016 inclusive (`range(current_year, 2015, -1)`, line 191, each year
assigned at lines 208-212); with no credentials and no manual entries for
such a year, the bucket is the empty list. -/
theorem c8_year_range_and_empty_buckets (tokens : List String)
    (responses : String → Nat → Except Unit Response)
    (manualFile : Option (Except Unit Dataset)) (current_year : Nat) (out : Dataset)
    (hrun : mainRun tokens responses manualFile current_year = .ok out)
    (y : Nat) (hy1 : 2016 ≤ y) (hy2 : y ≤ current_year) :
    (out.get (toString y)).isSome = true ∧
      (tokens = [] →
        (∀ d, manualFile = some (Except.ok d) →
          d.get (toString y) = none ∨ d.get (toString y) = some []) →
        out.get (toString y) = some []) := by
  have hymem : y ∈ years_to_fetch current_year := mem_years_to_fetch current_year y hy1 hy2
  cases hfy : fetchYearsLoop tokens responses (years_to_fetch current_year) [] with
  | error e =>
    rw [mainRun_error_fetch tokens responses manualFile current_year e hfy] at hrun
    exact Except.noConfusion hrun
  | ok all =>
    have hkeyAll : toString y ∈ all.keys := fetchYearsLoop_key_mem _ _ _ _ _ hfy y hymem
    cases hmf : manualFile with
    | none =>
      rw [hmf, mainRun_ok_none tokens responses current_year all hfy,
        Except.ok.injEq] at hrun
      subst hrun
      refine ⟨dataset_get_isSome_of_mem_keys _ _
        ((mem_keys_sortYearsDesc all (toString y)).mpr hkeyAll), ?_⟩
      intro htok _
      subst htok
      exact sorted_get_nil all (toString y) hkeyAll
        fun p hp _ => fetchYears_values_nil responses _ all hfy p hp
    | some r =>
      cases r with
      | error e =>
        rw [hmf, mainRun_error_manual tokens responses current_year all e hfy] at hrun
        exact Except.noConfusion hrun
      | ok d =>
        rw [hmf, mainRun_ok_manual tokens responses current_year all d hfy] at hrun
        rw [Except.ok.injEq] at hrun
        by_cases hd : d ≠ []
        · rw [if_pos hd] at hrun
          subst hrun
          refine ⟨dataset_get_isSome_of_mem_keys _ _
            ((mem_keys_sortYearsDesc _ (toString y)).mpr
              (merged_key_mem all d (toString y) hkeyAll)), ?_⟩
          intro htok hmanz
          subst htok
          exact merged_bucket_nil all d (toString y) hkeyAll
            (fetchYears_values_nil responses _ all hfy) (hmanz d rfl)
        · rw [if_neg hd] at hrun
          subst hrun
          refine ⟨dataset_get_isSome_of_mem_keys _ _
            ((mem_keys_sortYearsDesc all (toString y)).mpr hkeyAll), ?_⟩
          intro htok _
          subst htok
          exact sorted_get_nil all (toString y) hkeyAll
            fun p hp _ => fetchYears_values_nil responses _ all hfy p hp

/-- The output of a credential-less, manual-less run with current year 2017. -/
def c8OutEx : Dataset := [("2017", []), ("2016", [])]

theorem c8_year_range_and_empty_buckets_witness :
    mainRun [] (fun _ _ => Except.error ()) none 2017 = .ok c8OutEx ∧
    (c8OutEx.get (toString 2016)).isSome = true ∧
    c8OutEx.get (toString 2016) = some [] := by
  have hrun : mainRun [] (fun _ _ => Except.error ()) none 2017 = .ok c8OutEx := rfl
  have h := c8_year_range_and_empty_buckets [] (fun _ _ => Except.error ()) none 2017
    c8OutEx hrun 2016 (by omega) (by omega)
  exact ⟨hrun, h.1, h.2 rfl fun d hd => Option.noConfusion hd⟩

end GithubContributions
